import Mathlib

/-
Verification development for the TypeWriter reveal component
(src/TypeWriter.js, the hierarchical + caret variant).

The DOM subtree of one reveal region is embedded as a pure tree.  A node is
either a text node (carrying the length of its nodeValue) or an element.
For an element we record the two predicates the algorithm consults through
the layout oracle:
  * whether `isInvisible(element)` holds (its bounding client rect has zero
    width or height), and
  * whether `isContentElement(element)` holds (media/form-control tag names,
    or a non-inline element painting its own background/border/outline).
Both are computed-style/geometry queries, so they enter the model as data.
The region's root element is modelled as a detached root: its `parentNode`
is null and it has no siblings, matching a region subtree considered on its
own.  Node identity is by position: a node is addressed by its path of child
indices.  Inside the traversal functions paths are kept in reversed form
(head = index in the parent, tail = path of the parent), which makes
`parentNode` and `nextSibling` structural operations.
-/

inductive DNode : Type where
  | text : Nat → DNode
  | elem : Bool → Bool → List DNode → DNode

namespace TypeWriter

/-- `CHARACTERS_PER_CONTENT_ELEMENT` from TypeWriter.js: content elements are
arbitrarily treated as 10 characters of text. -/
def CHARACTERS_PER_CONTENT_ELEMENT : Nat := 10

mutual

/-- Length of `element.textContent`: total length of all text nodes in the
subtree, regardless of visibility (the DOM `textContent` getter ignores
styling and geometry). -/
def textContentLen : DNode → Nat
  | .text L => L
  | .elem _ _ cs => textContentLenList cs

/-- List version of `textContentLen` for a sequence of children. -/
def textContentLenList : List DNode → Nat
  | [] => 0
  | c :: rest => textContentLen c + textContentLenList rest
end

/-- `getContentLength(element)` from TypeWriter.js:
`element.textContent.length || CHARACTERS_PER_CONTENT_ELEMENT` — the fallback
applies exactly when the text length is `0` (falsy). -/
def getContentLength (n : DNode) : Nat :=
  let t := textContentLen n
  if t = 0 then CHARACTERS_PER_CONTENT_ELEMENT else t

/-- `isInvisible` as recorded on the node (zero-width or zero-height rect). -/
def isInvisible : DNode → Bool
  | .text _ => false
  | .elem invis _ _ => invis

/-- `isContentElement` as recorded on the node. -/
def isContentElement : DNode → Bool
  | .text _ => false
  | .elem _ content _ => content

/-- Children of a node (a text node has none). -/
def childrenOf : DNode → List DNode
  | .text _ => []
  | .elem _ _ cs => cs

/-- Look a node up by its (forward) path of child indices. -/
def nodeAt : DNode → List Nat → Option DNode
  | n, [] => some n
  | n, i :: rest =>
    match (childrenOf n).get? i with
    | some c => nodeAt c rest
    | none => none

/-- Look a node up by a reversed path (head = index in the parent). -/
def nodeAtRev (t : DNode) (rp : List Nat) : Option DNode :=
  nodeAt t rp.reverse

/-- `node === end` for the traversal in `countSteps`: the boundary is given
as a reversed path, identity is path equality. -/
def atEndB (rp : List Nat) (e : Option (List Nat)) : Bool :=
  match e with
  | some ep => rp = ep
  | none => false

/-- `node.contains(end)`: the node's reversed path is a suffix of the
boundary's reversed path (DOM `contains` includes the node itself). -/
def containsB (rp : List Nat) (e : Option (List Nat)) : Bool :=
  match e with
  | some ep => rp.isSuffixOf ep
  | none => false

mutual

/-- The traversal loop of `countSteps(element, end)` (TypeWriter.js lines
73–109), restated as structural recursion.  Processing a node at reversed
path `rp`: if the node is the boundary, stop (`true` flag) with sum 0;
a text node contributes its length; an invisible element contributes 0 and is
not descended into; a visible content element that does not contain the
boundary contributes `getContentLength` and is not descended into; otherwise
the node's children are processed in order (the `firstChild` /
`nextSibling` / `parentNode` bookkeeping of the source loop).  The Boolean
result records whether the boundary was reached, in which case the walk
short-circuits. -/
def countStepsAux (n : DNode) (rp : List Nat) (e : Option (List Nat)) : Nat × Bool :=
  if atEndB rp e then (0, true)
  else
    match n with
    | .text L => (L, false)
    | .elem invis content cs =>
      if invis then (0, false)
      else if content && (e.isNone || !containsB rp e) then
        (getContentLength (.elem invis content cs), false)
      else countStepsListAux cs 0 rp e

/-- Sequencing of `countStepsAux` over a list of children starting at child
index `i`, stopping as soon as the boundary is reached. -/
def countStepsListAux (cs : List DNode) (i : Nat) (rp : List Nat) (e : Option (List Nat)) :
    Nat × Bool :=
  match cs with
  | [] => (0, false)
  | c :: rest =>
    let r := countStepsAux c (i :: rp) e
    if r.2 then r
    else
      let r2 := countStepsListAux rest (i + 1) rp e
      (r.1 + r2.1, r2.2)
end

/-- `countSteps(element, end)`: the boundary, when present, is a forward path
from the root element. -/
def countSteps (t : DNode) (e : Option (List Nat)) : Nat :=
  (countStepsAux t [] (e.map List.reverse)).1

mutual

/-- Modelled from the spec (§3): `stepWeight` — 0 if invisible, the node's
own text length (or the fallback) if it is an atomic content element, and
otherwise the recursive sum over the children.  This is the spec-side
reference function that C4 compares `countSteps` against. -/
def stepWeight : DNode → Nat
  | .text L => L
  | .elem invis content cs =>
    if invis then 0
    else if content then getContentLength (.elem invis content cs)
    else stepWeightList cs

/-- Sum of `stepWeight` over a list of children. -/
def stepWeightList : List DNode → Nat
  | [] => 0
  | c :: rest => stepWeight c + stepWeightList rest
end

/-- Modelled from the spec (§4.1, C5): the number of steps that precede the
node at forward path `p` in document order within the tree, i.e. for each
ancestor level the weights of the earlier siblings, summed. -/
def stepsBefore (n : DNode) : List Nat → Nat
  | [] => 0
  | i :: rest =>
    stepWeightList ((childrenOf n).take i) +
      match (childrenOf n).get? i with
      | some c => stepsBefore c rest
      | none => 0

/-- The path `p` denotes a node all of whose proper ancestors (including the
root itself) are visible elements with the required children: the traversal
of `countSteps` can actually reach such a node. -/
def pathVisible (n : DNode) : List Nat → Bool
  | [] => true
  | i :: rest =>
    !isInvisible n &&
      match (childrenOf n).get? i with
      | some c => pathVisible c rest
      | none => false

/-- Result of running the consumption loop of `selectNextRange` over one
subtree: either the walk stopped inside (new range end as reversed path and
offset, plus the function's return value), or the subtree was exhausted with
some steps still requested. -/
inductive WalkRes : Type where
  | stop : List Nat → Nat → Int → WalkRes
  | cont : Int → WalkRes

mutual

/-- The body of the `while (stepsToMove > 0)` loop of `selectNextRange`
(TypeWriter.js lines 136–173) applied to the whole subtree of the node at
reversed path `rp`, entered at its start (`offset = 0`) with `s > 0` steps
requested.  A text node either absorbs all remaining steps (the range end
lands inside it at offset `s`, return value `-0 = 0`) or is consumed
entirely; an invisible element is skipped without consuming anything; a
visible content element consumes `getContentLength` steps wholesale and, if
`stepsToMove` thereby drops to 0 or below, the range end is placed after the
element (`setEndAfter`) and `-stepsToMove` is returned; any other element is
descended into (`firstChild`), visiting its children in order
(`nextSibling`).  For the detached root (`rp = []`) the `setEndAfter` case
is an out-of-model artifact, rendered as `(root, 0)`. -/
def walkNode (n : DNode) (rp : List Nat) (s : Int) : WalkRes :=
  match n with
  | .text L => if s ≤ (L : Int) then .stop rp s.toNat 0 else .cont (s - L)
  | .elem invis content cs =>
    if invis then .cont s
    else if content then
      let s2 := s - (getContentLength (.elem invis content cs) : Int)
      if s2 ≤ 0 then
        match rp with
        | i :: rest => .stop rest (i + 1) (-s2)
        | [] => .stop [] 0 (-s2)
      else .cont s2
    else walkList cs 0 rp s

/-- Visit a list of children in order, child `k` sitting at reversed path
`k :: rp`, propagating the remaining step count. -/
def walkList (cs : List DNode) (i : Nat) (rp : List Nat) (s : Int) : WalkRes :=
  match cs with
  | [] => .cont s
  | c :: rest =>
    match walkNode c (i :: rp) s with
    | .stop p off r => .stop p off r
    | .cont s2 => walkList rest (i + 1) rp s2

end

/-- The sibling search of the pre-adjustment step of `selectNextRange`
(lines 120–128): next-sibling location of the node at `rp`, climbing to
ancestors while there is none; `none` when the climb reaches the detached
root (the source then does a bare `return;`). -/
def findNextUp (t : DNode) : List Nat → Option (List Nat)
  | [] => none
  | i :: rest =>
    match nodeAtRev t rest with
    | none => none
    | some parent =>
      if i + 1 < (childrenOf parent).length then some ((i + 1) :: rest)
      else findNextUp t rest

/-- The "move onto the next node" climb of the main loop (lines 162–172),
entered after the subtree at `rp` is exhausted with `s` steps still
requested: walk the following siblings, then the parent's following
siblings, and so on; reaching the detached root sets the range end to
`(root, 0)` and returns `-stepsToMove`. -/
def walkUp (t : DNode) : List Nat → Int → (List Nat × Nat) × Option Int
  | [], s => (([], 0), some (-s))
  | i :: rest, s =>
    match nodeAtRev t rest with
    | none => ((i :: rest, 0), none)
    | some parent =>
      match walkList ((childrenOf parent).drop (i + 1)) (i + 1) rest s with
      | .stop p off r => ((p, off), some r)
      | .cont s2 => walkUp t rest s2

/-- Run the main loop of `selectNextRange` starting at the node at `rp`
with offset 0. -/
def runFrom (t : DNode) (rp : List Nat) (s : Int) : (List Nat × Nat) × Option Int :=
  match nodeAtRev t rp with
  | none => ((rp, 0), none)
  | some n =>
    match walkNode n rp s with
    | .stop p off r => ((p, off), some r)
    | .cont s2 => walkUp t rp s2

/-- `selectNextRange(range, stepsToMove)` (TypeWriter.js lines 111–176).
The range's end is the cursor `c` = (reversed path of `endContainer`,
`endOffset`); the start is collapsed onto it by the source and plays no
role in the returned end position.  Result: the new cursor and the JS
return value — `some v` for `return -stepsToMove` and variants, `none` for
the bare `return;` of line 124 (which yields `undefined`).  When
`stepsToMove ≤ 0` the loop body never runs and `-stepsToMove` is returned
with the cursor unchanged.  Otherwise the pre-adjustment step applies when
the end container is an element with a positive offset: jump to the child
at `offset` (or, past the last child, to the next location up the tree),
then run the main loop. -/
def selectNextRange (t : DNode) (c : List Nat × Nat) (s : Int) :
    (List Nat × Nat) × Option Int :=
  if s ≤ 0 then (c, some (-s))
  else
    match nodeAtRev t c.1 with
    | none => (c, none)
    | some n =>
      match n with
      | .text L =>
        if s ≤ (L : Int) - c.2 then ((c.1, c.2 + s.toNat), some 0)
        else walkUp t c.1 (s - ((L : Int) - c.2))
      | .elem _ _ cs =>
        if c.2 = 0 then runFrom t c.1 s
        else if cs.length ≤ c.2 then
          match findNextUp t c.1 with
          | none => (([], 0), none)
          | some srp => runFrom t srp s
        else runFrom t (c.2 :: c.1) s

/-- A client rect as reported by the layout engine (`getClientRects`). -/
structure Rect where
  x : Rat
  y : Rat
  w : Rat
  h : Rat
deriving DecidableEq

/-- JavaScript `Math.round`: round half away from zero upward,
`Math.round(x) = floor(x + 0.5)`. -/
def jsRound (q : Rat) : Int := ⌊q + 1 / 2⌋

/-- `Math.floor((duration * fps) / 1000)` (TypeWriter.js line 225). -/
def frameCountOf (duration fps : Rat) : Int := ⌊duration * fps / 1000⌋

/-- State of the keyframe-generation loop of `animate` (lines 265–299):
the range cursor, the float `currentStep` (`none` models the `NaN` that a
bare-`return` overshoot poisons it with), the per-frame record of
`currentStep` after each iteration, the accumulated clip-path segments
(`path`, a string in the source, modelled as the list of appended boxes),
and the pushed `keyframes` (the empty list is the `"polygon(0 0)"`
reveal-nothing sentinel). -/
structure RunSt where
  cursor : List Nat × Nat
  current : Option Int
  cum : List (Option Int)
  path : List Rect
  keyframes : List (List Rect)

/-- Loop state before the first frame: range collapsed to `(element, 0)`,
`currentStep = 0`, empty path accumulator. -/
def initRunSt : RunSt :=
  { cursor := ([], 0), current := some 0, cum := [], path := [], keyframes := [] }

/-- The inner rect loop of a frame (lines 274–285): rects with zero width or
height are skipped, the others are appended to the clip path. -/
def visBoxes (rs : List Rect) : List Rect :=
  rs.filter (fun r => !(r.w == 0 || r.h == 0))

/-- Frame `i` of the loop body: `stepsToMove = Math.round(stepsPerFrame * i
- currentStep)`; advance the range; append the nonzero-area client rects of
the revealed range (supplied by the layout oracle `rects`, per frame) to the
path accumulator; push the accumulated path as this frame's keyframe;
`currentStep += stepsToMove + overshoot`.  A `none` overshoot (the walker's
bare `return`) poisons `currentStep` with `NaN`: from then on the loop keeps
the cursor in place and appends rects only.  The caret keyframe streams
(opacity/translate) are derived data not modelled here. -/
def frameStep (t : DNode) (rects : Nat → List Rect) (spf : Rat) (st : RunSt) (i : Nat) :
    RunSt :=
  let boxes := visBoxes (rects i)
  let path2 := st.path ++ boxes
  match st.current with
  | none =>
    { cursor := st.cursor, current := none, cum := st.cum ++ [none],
      path := path2, keyframes := st.keyframes ++ [path2] }
  | some cur =>
    let stepsToMove := jsRound (spf * i - cur)
    let res := selectNextRange t st.cursor stepsToMove
    let current2 := res.2.map (fun ov => cur + stepsToMove + ov)
    { cursor := res.1, current := current2, cum := st.cum ++ [current2],
      path := path2, keyframes := st.keyframes ++ [path2] }

/-- The whole keyframe loop of `animate` for a region tree `t`:
`stepsPerFrame = stepsWithinElement / frameCount` with `stepsWithinElement =
countSteps(element)`, iterated for `i = 0 .. frameCount - 1`. -/
def runFrames (t : DNode) (rects : Nat → List Rect) (fc : Nat) : RunSt :=
  (List.range fc).foldl (frameStep t rects ((countSteps t none : Rat) / fc)) initRunSt

/-- The keyframe list of a loop state is monotone: each entry extends the
previous one by appended boxes, and the current path accumulator extends the
last pushed entry. -/
def kfChain (st : RunSt) : Prop :=
  (∀ i a b, st.keyframes[i]? = some a → st.keyframes[i + 1]? = some b →
      ∃ tail, b = a ++ tail) ∧
    ∀ a, st.keyframes.getLast? = some a → ∃ tail, st.path = a ++ tail

/-- The value of `currentStep` after `k` frames of a run over a region
holding a single text node, with `stepsPerFrame = S / fc`: zero initially,
afterwards the rounded target of the last processed frame. -/
def textCur (S fc : Nat) : Nat → Int
  | 0 => 0
  | k + 1 => jsRound ((S : Rat) / fc * k)

/-- The introspectable state of a Web-Animations handle as the coordinator
uses it: `animation.currentTime` (null while inactive) and the computed
timing of its effect (resolved delay and active duration). -/
structure AnimHandle where
  currentTime : Option Rat
  timingDelay : Rat
  activeDuration : Rat

/-- The fields of a TypeWriter instance read and written by the timing
computation (`createTypeWriterInstance`, lines 369–399). -/
structure Instance where
  duration : Rat
  fps : Rat
  delay : Rat
  totalSteps : Rat
  stepsCompleted : Rat
  runningToSteps : Rat
  runningAnimation : Option AnimHandle
  runningCaretAnimation : Option AnimHandle

/-- The restart prologue of `attemptAnimation` (lines 401–420): if an
animation is running, clear its handle; if its `currentTime` is observable,
sample `overallProgress = (stopTime - delay) / activeDuration` and — only
when that fraction is strictly positive — record
`stepsCompleted = runningToSteps * overallProgress`; then the old handle is
canceled.  The caret handle is canceled and cleared unconditionally. -/
def restartSample (inst : Instance) : Instance :=
  let inst2 :=
    match inst.runningAnimation with
    | none => inst
    | some a =>
      let base := { inst with runningAnimation := none }
      match a.currentTime with
      | none => base
      | some stopTime =>
        let overallProgress := (stopTime - a.timingDelay) / a.activeDuration
        if 0 < overallProgress then
          { base with stepsCompleted := inst.runningToSteps * overallProgress }
        else base
  { inst2 with runningCaretAnimation := none }

/-- `stepsUntilStart` of `animate` (lines 190–191): 0 when the element is
the animating root's own element, otherwise the boundary-bounded count. -/
def stepsUntilStart (rootTree : DNode) : Option (List Nat) → Nat
  | none => 0
  | some p => countSteps rootTree (some p)

/-- What `animate` submits to the animation driver for one instance. -/
structure Submission where
  delay : Rat
  duration : Rat
  frameCount : Int
  startTime : Rat

/-- The progress fraction of the root (lines 199–212): sampled from the
running animation's observable elapsed time when available, otherwise
reconstructed as `stepsCompleted / totalSteps`. -/
def animateProgress (rootInstance : Instance) : Rat :=
  match rootInstance.runningAnimation with
  | some a =>
    match a.currentTime with
    | some t => (t - a.timingDelay) / a.activeDuration
    | none => rootInstance.stepsCompleted / rootInstance.totalSteps
  | none => rootInstance.stepsCompleted / rootInstance.totalSteps

/-- The guard-and-timing skeleton of `animate` (lines 187–253 and 305–315),
up to the point where `element.animate` is called.  `rootInstance` is the
animating root, `elemPath` locates this instance's element inside the root's
tree (`none` when the element is the root element itself), `elemTree` is the
element's own subtree, and `elementRects` models
`element.getClientRects()`.  The duplicate progress guard of line 238
(identical to line 194, unreachable once the first passes) and the caret
reference measurement, which do not affect what is submitted, are omitted.
Returns the submitted options, or `none` when
the run degrades to a no-op: already progressed past this element's slice;
starting after the slice would have finished; fewer than 2 frames; a
fragmented (multi-rect) root; a zero-area root. -/
def animateM (rootInstance : Instance) (rootTree : DNode) (elemPath : Option (List Nat))
    (elemTree : DNode) (elementRects : List Rect) (duration fps delay : Rat) :
    Option Submission :=
  let stepsWithinElement := countSteps elemTree none
  let before := stepsUntilStart rootTree elemPath
  let stepsWithinRoot := rootInstance.totalSteps
  if rootInstance.stepsCompleted ≥ (before : Rat) + (stepsWithinElement : Rat) then none
  else
    let startTime := rootInstance.duration * animateProgress rootInstance
    let delay2 := delay + duration * (before : Rat) / stepsWithinRoot
    let duration2 := duration * ((stepsWithinElement : Rat) / stepsWithinRoot)
    if startTime ≥ delay2 + duration2 then none
    else
      let frameCount := ⌊duration2 * fps / 1000⌋
      if frameCount < 2 then none
      else
        match elementRects with
        | [r] =>
          if r.w == 0 || r.h == 0 then none
          else some { delay := delay2, duration := duration2, frameCount := frameCount,
                      startTime := startTime }
        | _ => none

/-- The ancestor walk of `attemptAnimation` (lines 426–439): climb while the
parent exists and has a running animation; the ancestor list is ordered
nearest-first. -/
def resolveAnimatingRoot : Instance → List Instance → Instance
  | inst, [] => inst
  | inst, p :: rest =>
    if p.runningAnimation.isSome then resolveAnimatingRoot p rest else inst

/-- The tail of `attemptAnimation` (lines 440–448): resolve the animating
root and call `animate` with the root's duration, this instance's fps and
this instance's delay. -/
def attemptAnimationTiming (inst : Instance) (ancestors : List Instance) (rootTree : DNode)
    (elemPath : Option (List Nat)) (elemTree : DNode) (elementRects : List Rect) :
    Option Submission :=
  let root := resolveAnimatingRoot inst ancestors
  animateM root rootTree elemPath elemTree elementRects root.duration inst.fps inst.delay

/-- The run-time handles of an instance that unmount must release:
animation handles (identified by ids) and the two observer connections. -/
structure InstanceRT where
  runningAnimation : Option Nat
  runningCaretAnimation : Option Nat
  mutationConnected : Bool
  resizeConnected : Bool

/-- The state after the unmount cleanup, plus the handles that were
canceled along the way. -/
structure UnmountResult where
  inst : InstanceRT
  parentChildren : Option (List Nat)
  canceled : List Nat

/-- The layout-effect cleanup of `TypeWriter` (lines 499–521):
`mutationObserver.disconnect()`, `resizeObserver.disconnect()`; when a
parent exists, remove this instance from its children via `indexOf` +
`splice(idx, 1)` (a no-op when `indexOf` misses); then, for each of the main
and caret animation handles, null the field and `cancel()` the handle if it
was set.  Total in every state — no step assumes the run ever started. -/
def unmountCleanup (selfId : Nat) (inst : InstanceRT)
    (parentChildren : Option (List Nat)) : UnmountResult :=
  let pc2 := parentChildren.map (fun cs =>
    let idx := cs.indexOf selfId
    if idx < cs.length then cs.eraseIdx idx else cs)
  let canceled1 : List Nat :=
    match inst.runningAnimation with
    | some hdl => [hdl]
    | none => []
  let canceled2 : List Nat :=
    match inst.runningCaretAnimation with
    | some hdl => canceled1 ++ [hdl]
    | none => canceled1
  { inst := { runningAnimation := none, runningCaretAnimation := none,
              mutationConnected := false, resizeConnected := false },
    parentChildren := pc2, canceled := canceled2 }

/-- Structural induction principle for `DNode` giving the hypothesis for
every member of the child list. -/
theorem DNode.myrec (P : DNode → Prop)
    (ht : ∀ L, P (.text L))
    (he : ∀ i c cs, (∀ n ∈ cs, P n) → P (.elem i c cs)) : ∀ n, P n
  | .text L => ht L
  | .elem i c cs => he i c cs (fun n _ => DNode.myrec P ht he n)
termination_by n => sizeOf n
decreasing_by
  have := List.sizeOf_lt_of_mem (show n ∈ cs by assumption)
  simp_wf
  omega

theorem atEndB_none (rp : List Nat) : atEndB rp none = false := rfl

theorem containsB_none (rp : List Nat) : containsB rp none = false := rfl

theorem countStepsListAux_none (rp : List Nat) (csl : List DNode) (j : Nat)
    (hm : ∀ m ∈ csl, ∀ rp', countStepsAux m rp' none = (stepWeight m, false)) :
    countStepsListAux csl j rp none = (stepWeightList csl, false) := by
  induction csl generalizing j with
  | nil => simp [countStepsListAux, stepWeightList]
  | cons hd tl ihl =>
    rw [countStepsListAux]
    rw [hm hd (by simp)]
    simp only [if_false]
    rw [ihl (j + 1) (fun m hm' rp' => hm m (List.mem_cons_of_mem _ hm') rp')]
    simp [stepWeightList]

/-- Without a boundary the traversal never stops early and computes exactly
the spec's `stepWeight`. -/
theorem countStepsAux_none (n : DNode) :
    ∀ rp, countStepsAux n rp none = (stepWeight n, false) := by
  induction n using DNode.myrec with
  | ht L => intro rp; simp [countStepsAux, stepWeight, atEndB_none]
  | he i c cs ih =>
    intro rp
    rw [countStepsAux]
    simp only [stepWeight, atEndB_none, if_false, Bool.false_eq_true]
    by_cases hi : i
    · simp [hi]
    · simp only [hi, if_false, Bool.false_eq_true]
      by_cases hc : c
      · simp [hc]
      · simp only [hc, if_false, Bool.false_eq_true, Bool.false_and]
        rw [countStepsListAux_none rp cs 0 (fun m hm rp' => ih m hm rp')]

theorem cons_suffix_append_cons_eq {j i : Nat} {rp pre ep : List Nat}
    (hep : ep = pre ++ (i :: rp)) (h : (j :: rp) <:+ ep) : j = i := by
  subst hep
  have h2 : (i :: rp) <:+ pre ++ (i :: rp) := List.suffix_append pre (i :: rp)
  have hlen : (j :: rp).length = (i :: rp).length := by simp
  have := List.IsSuffix.eq_of_length
    (List.suffix_of_suffix_length_le h h2 (le_of_eq hlen)) hlen
  exact (List.cons.injEq .. ▸ this).1

theorem countStepsListAux_notContains (ep rp : List Nat) (csl : List DNode) (j : Nat)
    (hns : ¬ (rp <:+ ep))
    (hm : ∀ m ∈ csl, ∀ rp2, ¬ (rp2 <:+ ep) → countStepsAux m rp2 (some ep) = (stepWeight m, false)) :
    countStepsListAux csl j rp (some ep) = (stepWeightList csl, false) := by
  induction csl generalizing j with
  | nil => simp [countStepsListAux, stepWeightList]
  | cons hd tl ihl =>
    rw [countStepsListAux]
    have hns2 : ¬ ((j :: rp) <:+ ep) := fun hsuf =>
      hns (List.IsSuffix.trans (List.suffix_append [j] rp) hsuf)
    rw [hm hd (by simp) (j :: rp) hns2]
    simp only [if_false]
    rw [ihl (j + 1) (fun m hm2 rp2 h2 => hm m (List.mem_cons_of_mem _ hm2) rp2 h2)]
    simp [stepWeightList]

/-- If the node at `rp` does not contain the boundary, the traversal of its
subtree behaves exactly as if no boundary were given: it contributes the
full `stepWeight` and does not stop. -/
theorem countStepsAux_notContains (n : DNode) :
    ∀ rp ep, ¬ (rp <:+ ep) → countStepsAux n rp (some ep) = (stepWeight n, false) := by
  induction n using DNode.myrec with
  | ht L =>
    intro rp ep hns
    have hne : atEndB rp (some ep) = false := by
      simp only [atEndB, decide_eq_false_iff_not]
      rintro rfl
      exact hns (List.suffix_refl rp)
    simp [countStepsAux, hne, stepWeight]
  | he i c cs ih =>
    intro rp ep hns
    have hne : atEndB rp (some ep) = false := by
      simp only [atEndB, decide_eq_false_iff_not]
      rintro rfl
      exact hns (List.suffix_refl rp)
    have hcb : containsB rp (some ep) = false := by
      simp only [containsB]
      rw [Bool.eq_false_iff]
      intro hx
      exact hns (List.isSuffixOf_iff_suffix.mp hx)
    rw [countStepsAux]
    simp only [hne, Bool.false_eq_true, if_false, stepWeight, hcb, Option.isNone_some,
      Bool.not_false, Bool.false_or, Bool.and_true]
    by_cases hi : i
    · simp [hi]
    · simp only [hi, if_false, Bool.false_eq_true]
      by_cases hc : c
      · simp [hc]
      · simp only [hc, if_false, Bool.false_eq_true]
        rw [countStepsListAux_notContains ep rp cs 0 hns (fun m hm rp2 h2 => ih m hm rp2 ep h2)]

theorem countStepsListAux_hit (ep rp : List Nat) (i : Nat) (child : DNode) (S : Nat)
    (hj : ∀ j, (j :: rp) <:+ ep → j = i)
    (hchild : countStepsAux child (i :: rp) (some ep) = (S, true)) :
    ∀ (cs : List DNode) (k : Nat), k ≤ i → cs.get? (i - k) = some child →
      countStepsListAux cs k rp (some ep) = (stepWeightList (cs.take (i - k)) + S, true) := by
  intro cs
  induction cs with
  | nil => intro k _ hget; simp at hget
  | cons c0 tl ihl =>
    intro k hk hget
    rcases Nat.lt_or_ge k i with hlt | hge
    · have hik : i - k = (i - (k + 1)) + 1 := by omega
      rw [hik] at hget
      simp only [List.get?_cons_succ] at hget
      have hns : ¬ ((k :: rp) <:+ ep) := fun hsuf => by
        have := hj k hsuf
        omega
      rw [countStepsListAux]
      rw [countStepsAux_notContains c0 (k :: rp) ep hns]
      simp only [if_false]
      rw [ihl (k + 1) (by omega) hget]
      rw [hik]
      simp [stepWeightList, Nat.add_assoc]
    · have hki : k = i := le_antisymm hk hge
      subst hki
      simp only [Nat.sub_self, List.get?_cons_zero, Option.some.injEq] at hget
      subst hget
      rw [countStepsListAux]
      rw [hchild]
      simp [stepWeightList]

/-- If the boundary lies at relative path `q` strictly inside the node at
`rp` and every node along `q` is a visible element, the traversal stops
exactly at the boundary and returns the steps preceding it. -/
theorem countStepsAux_hit :
    ∀ (q : List Nat) (n : DNode) (rp : List Nat), pathVisible n q = true →
      countStepsAux n rp (some (q.reverse ++ rp)) = (stepsBefore n q, true) := by
  intro q
  induction q with
  | nil =>
    intro n rp _
    have hend : atEndB rp (some ([].reverse ++ rp)) = true := by
      simp [atEndB]
    rw [countStepsAux.eq_def, hend]
    simp [stepsBefore]
  | cons i rest ih =>
    intro n rp hvis
    match n with
    | .text L => simp [pathVisible, childrenOf] at hvis
    | .elem invis content cs =>
      simp only [pathVisible, isInvisible, Bool.and_eq_true, Bool.not_eq_eq_eq_not,
        Bool.not_true] at hvis
      obtain ⟨hinvis, hrest⟩ := hvis
      simp only [childrenOf] at hrest
      rcases hg : cs.get? i with _ | child
      · rw [hg] at hrest; simp at hrest
      · rw [hg] at hrest
        have hep : (i :: rest).reverse ++ rp = rest.reverse ++ (i :: rp) := by
          simp
        rw [hep]
        have hend : atEndB rp (some (rest.reverse ++ (i :: rp))) = false := by
          simp only [atEndB, decide_eq_false_iff_not]
          intro hx
          have : (rest.reverse ++ (i :: rp)).length = rp.length := by rw [← hx]
          simp at this
          omega
        have hcb : containsB rp (some (rest.reverse ++ (i :: rp))) = true := by
          simp only [containsB]
          rw [List.isSuffixOf_iff_suffix]
          have : rest.reverse ++ (i :: rp) = (rest.reverse ++ [i]) ++ rp := by simp
          rw [this]
          exact List.suffix_append _ rp
        rw [countStepsAux]
        simp only [hend, Bool.false_eq_true, if_false, hinvis, hcb, Option.isNone_some,
          Bool.not_true, Bool.false_or, Bool.and_false, Bool.false_eq_true, if_false]
        have hj : ∀ j, (j :: rp) <:+ (rest.reverse ++ (i :: rp)) → j = i := fun j hsuf =>
          cons_suffix_append_cons_eq rfl hsuf
        have hchild := ih child (i :: rp) hrest
        rw [countStepsListAux_hit (rest.reverse ++ (i :: rp)) rp i child
          (stepsBefore child rest) hj hchild cs 0 (Nat.zero_le i) (by simpa using hg)]
        simp only [Nat.sub_zero, stepsBefore, childrenOf, hg]

/-- `countSteps(element)` with no boundary equals the spec's `stepWeight`. -/
theorem countSteps_none_eq (t : DNode) : countSteps t none = stepWeight t := by
  simp [countSteps, countStepsAux_none]

/-- A subtree whose whole weight is below the requested step count is
consumed entirely and the walk continues with the difference. -/
theorem walkNode_all (n : DNode) :
    ∀ rp s, (stepWeight n : Int) < s → walkNode n rp s = .cont (s - stepWeight n) := by
  induction n using DNode.myrec with
  | ht L =>
    intro rp s h
    simp only [stepWeight] at h ⊢
    simp [walkNode, not_le.mpr h]
  | he i c cs ih =>
    intro rp s h
    cases i with
    | true => simp_all [walkNode, stepWeight]
    | false =>
      cases c with
      | true =>
        simp only [stepWeight, Bool.false_eq_true, if_false, if_true] at h
        simp only [walkNode, Bool.false_eq_true, if_false, if_true, stepWeight]
        have h2 : ¬ (s - (getContentLength (.elem false true cs) : Int) ≤ 0) := by omega
        simp only [h2, if_false]
      | false =>
        simp only [stepWeight, Bool.false_eq_true, if_false] at h
        simp only [walkNode, Bool.false_eq_true, if_false, stepWeight]
        have hlist : ∀ (csl : List DNode) (k : Nat) (s2 : Int),
            (∀ m ∈ csl, ∀ rp2 s3, (stepWeight m : Int) < s3 →
              walkNode m rp2 s3 = .cont (s3 - stepWeight m)) →
            (stepWeightList csl : Int) < s2 →
            walkList csl k rp s2 = .cont (s2 - stepWeightList csl) := by
          intro csl
          induction csl with
          | nil => intro k s2 _ _; simp [walkList, stepWeightList]
          | cons hd tl ihl =>
            intro k s2 hm hlt
            simp only [stepWeightList] at hlt ⊢
            have hnn : (0 : Int) ≤ (stepWeightList tl : Int) := Int.natCast_nonneg _
            have hw : (stepWeight hd : Int) < s2 := by push_cast at hlt; omega
            rw [walkList, hm hd (by simp) (k :: rp) s2 hw]
            show walkList tl (k + 1) rp (s2 - (stepWeight hd : Int)) =
              WalkRes.cont (s2 - ((stepWeight hd : Int) + (stepWeightList tl : Int)))
            rw [ihl (k + 1) (s2 - stepWeight hd)
              (fun m hm2 rp2 s3 h3 => hm m (List.mem_cons_of_mem _ hm2) rp2 s3 h3)
              (by push_cast at hlt ⊢; omega)]
            congr 1
            omega
        exact hlist cs 0 s (fun m hm rp2 s3 h3 => ih m hm rp2 s3 h3) h

/-- Lifting of the atomic-consumption rule to `selectNextRange`: a cursor
standing at a visible atomic content element whose weight exceeds the
requested steps consumes the whole element — the range end is placed after
it — and returns the amount consumed beyond the request. -/
theorem selectNextRange_atomic (t : DNode) (i : Nat) (rest : List Nat) (cs : List DNode)
    (s : Int) (hn : nodeAtRev t (i :: rest) = some (.elem false true cs))
    (h0 : 0 < s) (hw : s < (getContentLength (.elem false true cs) : Int)) :
    selectNextRange t ((i :: rest), 0) s =
      ((rest, i + 1), some ((getContentLength (.elem false true cs) : Int) - s)) := by
  have h2 : s - (getContentLength (.elem false true cs) : Int) ≤ 0 := by omega
  rw [selectNextRange]
  simp only [not_le.mpr h0, if_false, hn, runFrom, walkNode, Bool.false_eq_true, if_true,
    if_false, h2]
  congr 2
  omega

/-- Boundary clamping of `selectNextRange`: requesting more steps than the
whole tree holds consumes everything, climbs back to the detached root,
sets the range end to `(root, 0)` and returns minus the remaining deficit. -/
theorem selectNextRange_clamp (t : DNode) (s : Int)
    (h : (countSteps t none : Int) < s) :
    selectNextRange t (([], 0)) s = ((([], 0)), some (-(s - countSteps t none))) := by
  have hsw : (stepWeight t : Int) < s := by rwa [countSteps_none_eq] at h
  have h0 : 0 < s := lt_of_le_of_lt (Int.natCast_nonneg _) hsw
  rw [selectNextRange]
  simp only [not_le.mpr h0, if_false]
  have hroot : nodeAtRev t [] = some t := rfl
  rw [countSteps_none_eq]
  match t with
  | .text L =>
    simp only [stepWeight] at hsw ⊢
    have hno : ¬ (s ≤ (L : Int) - ((0 : Nat) : Int)) := by push_cast; omega
    simp only [hroot, hno, if_false]
    rw [walkUp]
    norm_num
  | .elem invis content cs =>
    simp only [hroot, if_pos rfl]
    simp only [runFrom, hroot, walkNode_all _ [] s hsw, if_true]
    rw [walkUp]

theorem frameStep_shape (t : DNode) (rects : Nat → List Rect) (spf : Rat) (st : RunSt)
    (i : Nat) :
    (frameStep t rects spf st i).path = st.path ++ visBoxes (rects i) ∧
      (frameStep t rects spf st i).keyframes =
        st.keyframes ++ [st.path ++ visBoxes (rects i)] := by
  cases hc : st.current <;> simp [frameStep, hc]

theorem kfChain_step (t : DNode) (rects : Nat → List Rect) (spf : Rat) (st : RunSt)
    (i : Nat) (h : kfChain st) : kfChain (frameStep t rects spf st i) := by
  obtain ⟨hpath, hkf⟩ := frameStep_shape t rects spf st i
  set boxes := visBoxes (rects i) with hboxes
  constructor
  · intro j a b ha hb
    rw [hkf] at ha hb
    rcases Nat.lt_or_ge (j + 1) st.keyframes.length with hlt | hge
    · rw [List.getElem?_append_left (by omega)] at ha
      rw [List.getElem?_append_left hlt] at hb
      exact h.1 j a b ha hb
    · rcases Nat.lt_or_ge j st.keyframes.length with hjlt | hjge
      · have hj1 : j + 1 = st.keyframes.length := by omega
        rw [List.getElem?_append_left hjlt] at ha
        rw [List.getElem?_append_right hge, hj1] at hb
        simp only [Nat.sub_self, List.getElem?_cons_zero, Option.some.injEq] at hb
        have hlast : st.keyframes.getLast? = some a := by
          rw [List.getLast?_eq_getElem?]
          rw [show st.keyframes.length - 1 = j by omega]
          exact ha
        obtain ⟨tail, htail⟩ := h.2 a hlast
        exact ⟨tail ++ boxes, by rw [← hb, htail, List.append_assoc]⟩
      · rw [List.getElem?_append_right hge] at hb
        rcases hd : j + 1 - st.keyframes.length with _ | k
        · omega
        · rw [hd] at hb; simp at hb
  · intro a ha
    rw [hkf, List.getLast?_concat] at ha
    obtain rfl : st.path ++ boxes = a := by simpa using ha
    exact ⟨[], by rw [hpath, List.append_nil]⟩

theorem kfChain_foldl (t : DNode) (rects : Nat → List Rect) (spf : Rat) :
    ∀ (l : List Nat) (st : RunSt), kfChain st →
      kfChain (l.foldl (frameStep t rects spf) st) := by
  intro l
  induction l with
  | nil => intro st h; exact h
  | cons hd tl ih =>
    intro st h
    exact ih (frameStep t rects spf st hd) (kfChain_step t rects spf st hd h)

theorem kfChain_init : kfChain initRunSt := by
  constructor
  · intro i a b ha _
    simp [initRunSt] at ha
  · intro a ha
    simp [initRunSt] at ha

theorem jsRound_sub_intCast (q : Rat) (n : Int) : jsRound (q - n) = jsRound q - n := by
  unfold jsRound
  rw [sub_add_eq_add_sub, Int.floor_sub_int]

theorem jsRound_zero : jsRound 0 = 0 := by
  norm_num [jsRound]

theorem jsRound_nonneg (q : Rat) (h : 0 ≤ q) : 0 ≤ jsRound q :=
  Int.floor_nonneg.mpr (by linarith)

theorem jsRound_mono {q r : Rat} (h : q ≤ r) : jsRound q ≤ jsRound r :=
  Int.floor_le_floor (by linarith)

theorem jsRound_le_natCast {q : Rat} (S : Nat) (h : q ≤ (S : Rat)) :
    jsRound q ≤ (S : Int) := by
  unfold jsRound
  rw [Int.floor_le_iff]
  push_cast
  linarith

theorem textCur_nonneg (S fc k : Nat) : 0 ≤ textCur S fc k := by
  cases k with
  | zero => simp [textCur]
  | succ k => exact jsRound_nonneg _ (by positivity)

theorem textCur_le_round (S fc k : Nat) :
    textCur S fc k ≤ jsRound ((S : Rat) / fc * k) := by
  cases k with
  | zero =>
    simp only [textCur, Nat.cast_zero, mul_zero]
    rw [jsRound_zero]
  | succ k =>
    refine jsRound_mono (mul_le_mul_of_nonneg_left ?_ (by positivity))
    push_cast
    linarith

theorem round_target_le (S fc k : Nat) (hfc : 0 < fc) (hk : k ≤ fc) :
    jsRound ((S : Rat) / fc * k) ≤ (S : Int) := by
  refine jsRound_le_natCast S ?_
  have hfcq : (0 : Rat) < fc := by positivity
  calc (S : Rat) / fc * k ≤ (S : Rat) / fc * fc := by
        refine mul_le_mul_of_nonneg_left ?_ (by positivity)
        exact_mod_cast hk
    _ = S := div_mul_cancel₀ _ (ne_of_gt hfcq)

theorem selectNextRange_nonpos (t : DNode) (c : List Nat × Nat) (s : Int) (hs : s ≤ 0) :
    selectNextRange t c s = (c, some (-s)) := by
  rw [selectNextRange]
  simp [hs]

/-- Starting at the collapsed initial range of a single-text region, a
positive in-budget advance lands inside the text node at offset `s`. -/
theorem selectNextRange_textRegion_start (S : Nat) (s : Int) (hs : 0 < s)
    (hS : s ≤ (S : Int)) :
    selectNextRange (.elem false false [.text S]) (([], 0)) s =
      ((([0], s.toNat)), some 0) := by
  rw [selectNextRange]
  simp only [not_le.mpr hs, if_false]
  show runFrom (.elem false false [.text S]) [] s = ((([0], s.toNat)), some 0)
  have hw : walkNode (.elem false false [.text S]) [] s = .stop [0] s.toNat 0 := by
    rw [walkNode, walkList, walkNode]
    simp [hS]
  have hroot : nodeAtRev (.elem false false [.text S]) [] =
      some (.elem false false [.text S]) := rfl
  simp only [runFrom, hroot, hw]

/-- A further in-budget advance from inside the text node extends the
offset by `s`. -/
theorem selectNextRange_textRegion_mid (S off : Nat) (s : Int) (hs : 0 < s)
    (hle : s ≤ (S : Int) - off) :
    selectNextRange (.elem false false [.text S]) (([0], off)) s =
      ((([0], off + s.toNat)), some 0) := by
  rw [selectNextRange]
  simp only [not_le.mpr hs, if_false]
  have hn : nodeAtRev (.elem false false [.text S]) [0] = some (.text S) := rfl
  simp only [hn, hle, if_true]

/-- Invariant of the keyframe loop over a single-text region: after `k`
frames the recorded cumulative counts are exactly the rounded per-frame
targets, `currentStep` is the last rounded target, and the range end sits at
that offset inside the text node. -/
theorem textRun_inv (S fc : Nat) (rects : Nat → List Rect) (hfc : 0 < fc) :
    ∀ k, k ≤ fc →
      (((List.range k).foldl
          (frameStep (.elem false false [.text S]) rects ((S : Rat) / fc)) initRunSt).cum =
        (List.range k).map (fun (j : Nat) => some (jsRound ((S : Rat) / fc * j)))) ∧
      (((List.range k).foldl
          (frameStep (.elem false false [.text S]) rects ((S : Rat) / fc)) initRunSt).current =
        some (textCur S fc k)) ∧
      ((((List.range k).foldl
            (frameStep (.elem false false [.text S]) rects ((S : Rat) / fc)) initRunSt).cursor =
          (([], 0)) ∧ textCur S fc k = 0) ∨
        (((List.range k).foldl
            (frameStep (.elem false false [.text S]) rects ((S : Rat) / fc)) initRunSt).cursor =
          (([0], (textCur S fc k).toNat)))) := by
  intro k
  induction k with
  | zero =>
    intro _
    refine ⟨by simp [initRunSt], by simp [initRunSt, textCur], Or.inl ⟨by simp [initRunSt], rfl⟩⟩
  | succ k ih =>
    intro hk1
    obtain ⟨hcum, hcur, hcursor⟩ := ih (by omega)
    have hkfc : k ≤ fc := by omega
    rw [List.range_succ, List.foldl_append, List.foldl_cons, List.foldl_nil]
    set st := (List.range k).foldl
      (frameStep (.elem false false [.text S]) rects ((S : Rat) / fc)) initRunSt with hst
    have hm : jsRound ((S : Rat) / fc * k - textCur S fc k) =
        jsRound ((S : Rat) / fc * k) - textCur S fc k := jsRound_sub_intCast _ _
    have hm0 : 0 ≤ jsRound ((S : Rat) / fc * k) - textCur S fc k := by
      have := textCur_le_round S fc k
      omega
    have hmS : jsRound ((S : Rat) / fc * k) ≤ (S : Int) := round_target_le S fc k hfc hkfc
    have htc0 : 0 ≤ textCur S fc k := textCur_nonneg S fc k
    have hnext : textCur S fc (k + 1) = jsRound ((S : Rat) / fc * k) := rfl
    rcases eq_or_lt_of_le hm0 with heq | hlt
    · -- stepsToMove = 0: nothing moves this frame
      have hsnr : selectNextRange (.elem false false [.text S]) st.cursor
          (jsRound ((S : Rat) / fc * k - textCur S fc k)) = (st.cursor, some 0) := by
        rw [hm, ← heq, selectNextRange_nonpos _ _ 0 (le_refl 0)]
        norm_num
      refine ⟨?_, ?_, ?_⟩
      · simp only [frameStep, hcur, hsnr, Option.map_some', List.map_append, List.map_cons,
          List.map_nil, ← hcum, List.append_right_inj, List.cons.injEq, Option.some.injEq,
          and_true]
        omega
      · simp only [frameStep, hcur, hsnr, Option.map_some', Option.some.injEq]
        omega
      · rcases hcursor with ⟨hc1, hc2⟩ | hc1
        · refine Or.inl ⟨?_, ?_⟩
          · simp only [frameStep, hcur, hsnr]
            exact hc1
          · omega
        · refine Or.inr ?_
          have htc : textCur S fc (k + 1) = textCur S fc k := by omega
          simp only [frameStep, hcur, hsnr]
          rw [hc1, htc]
    · -- stepsToMove > 0: the range advances inside the text node
      rcases hcursor with ⟨hc1, hc2⟩ | hc1
      · have hsnr : selectNextRange (.elem false false [.text S]) st.cursor
            (jsRound ((S : Rat) / fc * k - textCur S fc k)) =
            ((([0], (jsRound ((S : Rat) / fc * k) - textCur S fc k).toNat)), some 0) := by
          rw [hm, hc1]
          exact selectNextRange_textRegion_start S _ hlt (by omega)
        refine ⟨?_, ?_, Or.inr ?_⟩
        · simp only [frameStep, hcur, hsnr, Option.map_some', List.map_append, List.map_cons,
            List.map_nil, ← hcum, List.append_right_inj, List.cons.injEq, Option.some.injEq,
            and_true]
          omega
        · simp only [frameStep, hcur, hsnr, Option.map_some', Option.some.injEq]
          omega
        · simp only [frameStep, hcur, hsnr, Prod.mk.injEq, true_and]
          omega
      · have hsnr : selectNextRange (.elem false false [.text S]) st.cursor
            (jsRound ((S : Rat) / fc * k - textCur S fc k)) =
            ((([0], (textCur S fc k).toNat +
              (jsRound ((S : Rat) / fc * k) - textCur S fc k).toNat)), some 0) := by
          rw [hm, hc1]
          refine selectNextRange_textRegion_mid S _ _ hlt ?_
          omega
        refine ⟨?_, ?_, Or.inr ?_⟩
        · simp only [frameStep, hcur, hsnr, Option.map_some', List.map_append, List.map_cons,
            List.map_nil, ← hcum, List.append_right_inj, List.cons.injEq, Option.some.injEq,
            and_true]
          omega
        · simp only [frameStep, hcur, hsnr, Option.map_some', Option.some.injEq]
          omega
        · simp only [frameStep, hcur, hsnr, Prod.mk.injEq, true_and]
          omega

theorem countSteps_textRegion (S : Nat) :
    countSteps (.elem false false [.text S]) none = S := by
  rw [countSteps_none_eq]
  simp [stepWeight, stepWeightList]

/-- The rounded target of the final frame equals the full step count exactly
when `2 * totalSteps ≤ frameCount`. -/
theorem final_round_iff (S fc : Nat) (hfc : 0 < fc) :
    jsRound ((S : Rat) / fc * ((fc : Rat) - 1)) = S ↔ 2 * S ≤ fc := by
  have hfcq : (0 : Rat) < fc := by exact_mod_cast hfc
  have hx : (S : Rat) / fc * ((fc : Rat) - 1) + 1 / 2 =
      1 / 2 - (S : Rat) / fc + ((S : Int) : Rat) := by
    field_simp
    ring
  unfold jsRound
  rw [hx, Int.floor_add_int]
  have hnn : (0 : Rat) ≤ (S : Rat) / fc := by positivity
  constructor
  · intro h
    have h0 : ⌊1 / 2 - (S : Rat) / fc⌋ = 0 := by omega
    have h1 := (Set.mem_Ico.mp (Int.floor_eq_zero_iff.mp h0)).1
    rw [sub_nonneg, div_le_iff₀ hfcq] at h1
    have h2 : (2 * S : Rat) ≤ fc := by linarith
    exact_mod_cast h2
  · intro h
    have h1 : (S : Rat) / fc ≤ 1 / 2 := by
      rw [div_le_iff₀ hfcq]
      have h2 : ((2 * S : Nat) : Rat) ≤ ((fc : Nat) : Rat) := by exact_mod_cast h
      push_cast at h2
      linarith
    have h0 : ⌊1 / 2 - (S : Rat) / fc⌋ = 0 := by
      rw [Int.floor_eq_zero_iff, Set.mem_Ico]
      constructor
      · linarith
      · linarith
    omega

/-- The cumulative per-frame record of a whole run over a single-text
region, in closed form. -/
theorem runFrames_textRegion_cum (S fc : Nat) (rects : Nat → List Rect) (hfc : 0 < fc) :
    (runFrames (.elem false false [.text S]) rects fc).cum =
      (List.range fc).map (fun (j : Nat) => some (jsRound ((S : Rat) / fc * j))) := by
  have h := (textRun_inv S fc rects hfc fc le_rfl).1
  rw [runFrames, countSteps_textRegion]
  exact h

/-- Evaluation of a two-frame run over a region holding a single atomic
content element of weight 10: frame 1 requests 5 steps but the atomic
element is consumed whole, so the cumulative count jumps to 10. -/
theorem atomicRun_cum :
    (runFrames (.elem false false [.elem false true []]) (fun _ => []) 2).cum =
      [some 0, some 10] := by
  have hcs : countSteps (.elem false false [.elem false true []]) none = 10 := by decide
  rw [runFrames, hcs, show List.range 2 = [0, 1] from rfl, List.foldl_cons, List.foldl_cons,
    List.foldl_nil]
  have snr0 : selectNextRange (.elem false false [.elem false true []]) (([], 0)) 0 =
      ((([], 0)), some 0) := by decide
  have snr5 : selectNextRange (.elem false false [.elem false true []]) (([], 0)) 5 =
      ((([], 1)), some 5) := by decide
  norm_num [frameStep, initRunSt, jsRound, snr0, snr5, visBoxes]

/-- The keyframes of any two-frame run, in closed form: the boxes of frame 0,
then those of frame 0 and frame 1 together (the accumulator grows). -/
theorem runFrames_keyframes_two (t : DNode) (rects : Nat → List Rect) :
    (runFrames t rects 2).keyframes =
      [visBoxes (rects 0), visBoxes (rects 0) ++ visBoxes (rects 1)] := by
  rw [runFrames, show List.range 2 = [0, 1] from rfl, List.foldl_cons, List.foldl_cons,
    List.foldl_nil]
  obtain ⟨hp0, hk0⟩ := frameStep_shape t rects
    ((countSteps t none : Rat) / ((2 : Nat) : Rat)) initRunSt 0
  obtain ⟨hp1, hk1⟩ := frameStep_shape t rects ((countSteps t none : Rat) / ((2 : Nat) : Rat))
    (frameStep t rects ((countSteps t none : Rat) / ((2 : Nat) : Rat)) initRunSt 0) 1
  rw [hk1, hk0, hp0]
  simp [initRunSt]

/-- Everything that holds of a successful submission: the timing formulas
and the guard conditions that were passed. -/
theorem animateM_some (rootInstance : Instance) (rootTree : DNode)
    (elemPath : Option (List Nat)) (elemTree : DNode) (elementRects : List Rect)
    (duration fps delay : Rat) (sub : Submission)
    (h : animateM rootInstance rootTree elemPath elemTree elementRects duration fps delay =
      some sub) :
    sub.delay = delay +
        duration * (stepsUntilStart rootTree elemPath : Rat) / rootInstance.totalSteps ∧
      sub.duration = duration * ((countSteps elemTree none : Rat) / rootInstance.totalSteps) ∧
      sub.frameCount = ⌊sub.duration * fps / 1000⌋ ∧
      2 ≤ sub.frameCount ∧
      ∃ r, elementRects = [r] ∧ (r.w == 0 || r.h == 0) = false := by
  simp only [animateM] at h
  split at h
  · exact absurd h (by simp)
  · split at h
    · exact absurd h (by simp)
    · split at h
      · exact absurd h (by simp)
      · split at h
        · rename_i r
          split at h
          · exact absurd h (by simp)
          · rename_i hz
            injection h with h2
            subst h2
            refine ⟨rfl, rfl, rfl, by dsimp only; omega, r, rfl, by simpa using hz⟩
        · exact absurd h (by simp)

/-- The already-completed guard (line 194): when the root's recorded
progress has reached or passed the end of this element's slice, the run is
a no-op. -/
theorem animateM_none_of_completed (rootInstance : Instance) (rootTree : DNode)
    (elemPath : Option (List Nat)) (elemTree : DNode) (elementRects : List Rect)
    (duration fps delay : Rat)
    (h : rootInstance.stepsCompleted ≥
      (stepsUntilStart rootTree elemPath : Rat) + (countSteps elemTree none : Rat)) :
    animateM rootInstance rootTree elemPath elemTree elementRects duration fps delay =
      none := by
  simp only [animateM, if_pos h]

/-- The frame-budget guard (lines 225–229): fewer than 2 frames is a no-op. -/
theorem animateM_none_of_fewFrames (rootInstance : Instance) (rootTree : DNode)
    (elemPath : Option (List Nat)) (elemTree : DNode) (elementRects : List Rect)
    (duration fps delay : Rat)
    (h : ⌊duration * ((countSteps elemTree none : Rat) / rootInstance.totalSteps) *
      fps / 1000⌋ < 2) :
    animateM rootInstance rootTree elemPath elemTree elementRects duration fps delay =
      none := by
  simp only [animateM]
  repeat' split
  all_goals first
    | rfl
    | (rename_i hno; exact absurd h hno)

/-- The fragmented-root guard (lines 244–248): a multi-rect (or empty-rect)
root element rejects the run. -/
theorem animateM_none_of_multiRect (rootInstance : Instance) (rootTree : DNode)
    (elemPath : Option (List Nat)) (elemTree : DNode) (elementRects : List Rect)
    (duration fps delay : Rat) (h : elementRects.length ≠ 1) :
    animateM rootInstance rootTree elemPath elemTree elementRects duration fps delay =
      none := by
  simp only [animateM]
  repeat' split
  all_goals first
    | rfl
    | (rename_i r; simp at h)

/-- The zero-area guard (lines 250–253): an invisible root skips the run. -/
theorem animateM_none_of_zeroArea (rootInstance : Instance) (rootTree : DNode)
    (elemPath : Option (List Nat)) (elemTree : DNode) (r : Rect)
    (duration fps delay : Rat) (h : (r.w == 0 || r.h == 0) = true) :
    animateM rootInstance rootTree elemPath elemTree [r] duration fps delay = none := by
  simp only [animateM, h, if_true]
  repeat' split
  all_goals rfl

end TypeWriter

open TypeWriter

/-- C4: countSteps with no boundary is the subtree sum of stepWeight — an
invisible element contributes 0 even if it contains text, an atomic content
element contributes its own text length or the fallback 10 when the text
length is 0, and a visible non-atomic element is transparent, contributing
the recursive sum over its children; consequently a region containing one
invisible child and one image-category element with no text has
totalSteps = 10. -/
theorem c4_countSteps_is_stepWeight_sum :
    (∀ t : DNode, countSteps t none = stepWeight t) ∧
      countSteps (.elem false false [.elem true false [.text 3], .elem false true []]) none =
        10 := by
  constructor
  · intro t
    simp [countSteps, countStepsAux_none]
  · decide

/-- C5 counterexample: when the boundary node lies inside an invisible
subtree, the traversal never reaches it, so `countSteps` returns the count of
the whole tree (here 5, from the text node after the invisible subtree)
instead of the 0 steps that precede the boundary in document order. -/
theorem c5_boundary_count_cex :
    countSteps (.elem false false [.elem true false [.text 3], .text 5]) (some [0, 0]) = 5 ∧
      stepsBefore (.elem false false [.elem true false [.text 3], .text 5]) [0, 0] = 0 ∧
      (5 : Nat) ≠ 0 := by
  refine ⟨by decide, by decide, by decide⟩

/-- C5 (amended): for every tree and every boundary path `p` all of whose
proper ancestors are visible elements (so the boundary is reachable by the
boundary-respecting traversal — in particular it is not hidden inside an
invisible subtree), `countSteps(r, b)` returns exactly the number of steps
preceding `b` in document order within `r`, short-circuiting at `b`; this
includes the case of a boundary inside a visible atomic content element,
which is then descended into. -/
theorem c5_boundary_count (t : DNode) (p : List Nat) (h : pathVisible t p = true) :
    countSteps t (some p) = stepsBefore t p := by
  have := countStepsAux_hit p t [] h
  rw [List.append_nil] at this
  simp [countSteps, this]

/-- Witness for C5 at a concrete input whose boundary lies inside a visible
atomic content element (which the count drills into): steps before the
second text inside the atomic element are 5 + 3 = 8. -/
theorem c5_boundary_count_witness :
    pathVisible (.elem false false [.text 5, .elem false true [.text 3, .text 7]]) [1, 1] = true ∧
      countSteps (.elem false false [.text 5, .elem false true [.text 3, .text 7]])
          (some [1, 1]) =
        stepsBefore (.elem false false [.text 5, .elem false true [.text 3, .text 7]]) [1, 1] ∧
      stepsBefore (.elem false false [.text 5, .elem false true [.text 3, .text 7]]) [1, 1] = 8 :=
  ⟨by decide,
    c5_boundary_count (.elem false false [.text 5, .elem false true [.text 3, .text 7]]) [1, 1]
      (by decide),
    by decide⟩

/-- C3 counterexample: starting at the root of a region whose only child is
an atomic content element of weight 10, requesting 3 steps meets the atomic
element with 3 remaining; the element is consumed whole (range end placed
after it, offset 1 of the root) but the returned overshoot is `+7 = 10 - 3`,
a positive value — not a negative one as the claim states. -/
theorem c3_walker_overshoot_cex :
    selectNextRange (.elem false false [.elem false true []]) (([], 0)) 3 =
        ((([], 1)), some 7) ∧
      ¬ ((7 : Int) < 0) := by
  exact ⟨by decide, by decide⟩

/-- C3 (amended): when the walk meets a visible atomic content element whose
step weight exceeds the remaining requested steps, the whole element is
consumed as one unit — the cursor is placed after it — and the walk returns
the over-consumed amount `weight - remaining` as a positive overshoot (the
negation of the negative leftover `remaining - weight`); when the tree
boundary is reached with steps still requested, the cursor is clamped at
the detached root with offset 0 and the remaining deficit is returned
negated. -/
theorem c3_walker_overshoot :
    (∀ (t : DNode) (i : Nat) (rest : List Nat) (cs : List DNode) (s : Int),
        nodeAtRev t (i :: rest) = some (.elem false true cs) → 0 < s →
        s < (getContentLength (.elem false true cs) : Int) →
        selectNextRange t ((i :: rest), 0) s =
          ((rest, i + 1), some ((getContentLength (.elem false true cs) : Int) - s))) ∧
      (∀ (t : DNode) (s : Int), (countSteps t none : Int) < s →
        selectNextRange t (([], 0)) s = ((([], 0)), some (-(s - countSteps t none)))) :=
  ⟨selectNextRange_atomic, selectNextRange_clamp⟩

/-- Witness for C3 at concrete inputs: a cursor standing at an atomic
element of weight 10, asked for 3 steps, ends after the element with
overshoot +7; a region holding 4 steps of text, asked for 10 steps, clamps
at the root and returns -6. -/
theorem c3_walker_overshoot_witness :
    selectNextRange (.elem false false [.elem false true []]) (([0], 0)) 3 =
        (([], 1), some 7) ∧
      selectNextRange (.elem false false [.text 4]) (([], 0)) 10 =
        ((([], 0)), some (-6)) :=
  ⟨c3_walker_overshoot.1 (.elem false false [.elem false true []]) 0 [] [] 3 rfl
      (by decide) (by decide),
    c3_walker_overshoot.2 (.elem false false [.text 4]) 10 (by decide)⟩

/-- C1 counterexample, two concrete runs that reach keyframe generation.
First: a region whose content is one atomic element of weight 10, run with
frameCount = 2 (stepsPerFrame = 5): at frame 1 the cumulative revealed step
count is 10 — the whole atomic element — while round(stepsPerFrame * 1) = 5,
so the claimed per-frame equality fails.  Second: a region holding a
100-character text, run with frameCount = 18 (duration=300, fps=60): at the
final frame (index 17) the cumulative revealed step count is 94, not
totalSteps = 100 — the final frame does not reveal the entire content. -/
theorem c1_frame_progress_cex :
    (runFrames (.elem false false [.elem false true []]) (fun _ => []) 2).cum[1]? =
        some (some 10) ∧
      countSteps (.elem false false [.elem false true []]) none = 10 ∧
      jsRound ((10 : Rat) / 2 * 1) = 5 ∧ ((10 : Int) ≠ 5) ∧
      (runFrames (.elem false false [.text 100]) (fun _ => []) 18).cum[17]? =
        some (some 94) ∧
      countSteps (.elem false false [.text 100]) none = 100 ∧ ((94 : Int) ≠ 100) := by
  refine ⟨?_, by decide, by norm_num [jsRound], by decide, ?_, by decide, by decide⟩
  · rw [atomicRun_cum]
    rfl
  · rw [runFrames_textRegion_cum 100 18 _ (by norm_num)]
    have h94 : jsRound ((100 : Rat) / 18 * ((17 : Nat) : Rat)) = 94 := by
      norm_num [jsRound]
    simp only [List.getElem?_map, List.getElem?_range (show 17 < 18 by norm_num)]
    rw [Option.map_some']
    rw [show (((100 : Nat) : Rat)) = (100 : Rat) by norm_num,
      show (((18 : Nat) : Rat)) = (18 : Rat) by norm_num, h94]

/-- C1 (amended): for every run over a region whose content is plain text
(a single text node — no atomic elements, hence no overshoot), at frame `i`
the cumulative revealed step count equals `round(stepsPerFrame * i)` with
`stepsPerFrame = totalSteps / frameCount`; the final frame (index
`frameCount - 1`) reveals all `totalSteps` steps if and only if
`2 * totalSteps ≤ frameCount` — not unconditionally.  In Scenario A
("Hi", 2 steps, duration=300, fps=60, frameCount=18) the condition holds
and frame 17 reveals both characters. -/
theorem c1_frame_progress (S fc : Nat) (rects : Nat → List Rect) (hfc : 2 ≤ fc) :
    (∀ i, i < fc → (runFrames (.elem false false [.text S]) rects fc).cum[i]? =
        some (some (jsRound ((S : Rat) / fc * i)))) ∧
      (jsRound ((S : Rat) / fc * ((fc : Rat) - 1)) = S ↔ 2 * S ≤ fc) := by
  constructor
  · intro i hi
    rw [runFrames_textRegion_cum S fc rects (by omega)]
    simp only [List.getElem?_map, List.getElem?_range hi]
    rfl
  · exact final_round_iff S fc (by omega)

/-- Witness for C1 at Scenario A: frameCount(300, 60) = 18, and for the
2-step region the recorded cumulative count at frame 17 is
round(2/18 * 17) = 2 — both characters. -/
theorem c1_frame_progress_witness :
    frameCountOf 300 60 = 18 ∧
      (runFrames (.elem false false [.text 2]) (fun _ => []) 18).cum[17]? =
        some (some (jsRound ((2 : Rat) / 18 * 17))) ∧
      (jsRound ((2 : Rat) / 18 * ((18 : Rat) - 1)) = 2 ↔ 2 * 2 ≤ 18) ∧
      jsRound ((2 : Rat) / 18 * 17) = 2 := by
  have h := c1_frame_progress 2 18 (fun _ => []) (by norm_num)
  refine ⟨by norm_num [frameCountOf], ?_, ?_, by norm_num [jsRound]⟩
  · have h1 := h.1 17 (by norm_num)
    simpa using h1
  · have h2 := h.2
    constructor
    · intro hx
      norm_num
    · intro _
      have : jsRound ((2 : Rat) / 18 * ((18 : Rat) - 1)) = 2 := by norm_num [jsRound]
      exact this

/-- C10: within one run's keyframe sequence the clip region is monotonically
non-decreasing: every frame's clip path is the previous frame's path with
zero or more boxes appended (the path accumulator is never reset within a
run), so each frame's revealed region is a superset of the previous
frame's. -/
theorem c10_keyframes_monotone (t : DNode) (rects : Nat → List Rect) (fc i : Nat)
    (a b : List Rect) (ha : (runFrames t rects fc).keyframes[i]? = some a)
    (hb : (runFrames t rects fc).keyframes[i + 1]? = some b) :
    ∃ tail, b = a ++ tail :=
  (kfChain_foldl t rects ((countSteps t none : Rat) / fc) (List.range fc) initRunSt
    kfChain_init).1 i a b ha hb

/-- Witness for C10 on a concrete two-frame run producing one unit box per
frame: the second keyframe extends the first by an appended box. -/
theorem c10_keyframes_monotone_witness :
    (runFrames (.elem false false []) (fun _ => [⟨0, 0, 1, 1⟩]) 2).keyframes[0]? =
        some [⟨0, 0, 1, 1⟩] ∧
      (runFrames (.elem false false []) (fun _ => [⟨0, 0, 1, 1⟩]) 2).keyframes[1]? =
        some [⟨0, 0, 1, 1⟩, ⟨0, 0, 1, 1⟩] ∧
      ∃ tail, [⟨0, 0, 1, 1⟩, ⟨0, 0, 1, 1⟩] = ([⟨0, 0, 1, 1⟩] : List Rect) ++ tail := by
  have h0 : (runFrames (.elem false false []) (fun _ => [⟨0, 0, 1, 1⟩]) 2).keyframes[0]? =
      some [⟨0, 0, 1, 1⟩] := by
    rw [runFrames_keyframes_two]
    decide
  have h1 : (runFrames (.elem false false []) (fun _ => [⟨0, 0, 1, 1⟩]) 2).keyframes[1]? =
      some [⟨0, 0, 1, 1⟩, ⟨0, 0, 1, 1⟩] := by
    rw [runFrames_keyframes_two]
    decide
  exact ⟨h0, h1, c10_keyframes_monotone _ _ 2 0 _ _ h0 h1⟩

/-- C2 counterexample: nested instance whose own configured delay (50) is
not the root's configured delay (0).  Outer tree has totalSteps 20, the
inner node spans steps [5, 15), outer duration 300.  The code submits
delay = ownDelay + 300 * 5 / 20 = 125, while the claim's formula
rootDelay + 300 * 5 / 20 gives 75. -/
theorem c2_slice_allocation_cex :
    attemptAnimationTiming
        ⟨300, 60, 50, 0, 0, 0, none, none⟩
        [⟨300, 60, 0, 20, 0, 0, some ⟨none, 0, 1⟩, none⟩]
        (.elem false false [.text 5, .elem false false [.text 10], .text 5]) (some [1])
        (.elem false false [.text 10]) [⟨0, 0, 10, 10⟩] =
      some ⟨125, 150, 9, 0⟩ ∧
      (0 : Rat) + 300 * 5 / 20 = 75 ∧ ((125 : Rat) ≠ 75) := by
  have h5 : stepsUntilStart
      (.elem false false [.text 5, .elem false false [.text 10], .text 5]) (some [1]) = 5 := by
    decide
  have h10 : countSteps (.elem false false [.text 10]) none = 10 := by decide
  refine ⟨?_, by norm_num, by norm_num⟩
  rw [attemptAnimationTiming]
  rw [show resolveAnimatingRoot ⟨300, 60, 50, 0, 0, 0, none, none⟩
      [⟨300, 60, 0, 20, 0, 0, some ⟨none, 0, 1⟩, none⟩] =
      ⟨300, 60, 0, 20, 0, 0, some ⟨none, 0, 1⟩, none⟩ from rfl]
  rw [animateM, h5, h10]
  norm_num [animateProgress, Submission.mk.injEq]

/-- C2 (amended): for every instance that submits an animation under an
animating root, the submitted delay equals the instance's OWN configured
delay plus `rootDuration * before / rootSteps` (the code passes
`instance.delay`, not the root's delay), and the submitted duration equals
`rootDuration * (within / rootSteps)`, with
`before = countSteps(rootElement, element)`, `within = countSteps(element)`
and `rootSteps` the root's recorded `totalSteps`. -/
theorem c2_slice_allocation (inst : Instance) (ancestors : List Instance)
    (rootTree elemTree : DNode) (elemPath : Option (List Nat)) (rects : List Rect)
    (sub : Submission) (root : Instance)
    (hroot : resolveAnimatingRoot inst ancestors = root)
    (h : attemptAnimationTiming inst ancestors rootTree elemPath elemTree rects =
      some sub) :
    sub.delay = inst.delay +
        root.duration * (stepsUntilStart rootTree elemPath : Rat) / root.totalSteps ∧
      sub.duration = root.duration * ((countSteps elemTree none : Rat) / root.totalSteps) := by
  rw [attemptAnimationTiming] at h
  rw [hroot] at h
  obtain ⟨hd, hdur, _⟩ := animateM_some root rootTree elemPath elemTree rects
    root.duration inst.fps inst.delay sub h
  exact ⟨hd, hdur⟩

/-- Witness for C2 at Scenario C: outer totalSteps 20, inner spanning
[5, 15), outer duration 300, both delays 0 — the inner instance is
submitted with delay 75 and duration 150. -/
theorem c2_slice_allocation_witness :
    attemptAnimationTiming
        ⟨300, 60, 0, 0, 0, 0, none, none⟩
        [⟨300, 60, 0, 20, 0, 0, some ⟨none, 0, 1⟩, none⟩]
        (.elem false false [.text 5, .elem false false [.text 10], .text 5]) (some [1])
        (.elem false false [.text 10]) [⟨0, 0, 10, 10⟩] =
      some ⟨75, 150, 9, 0⟩ ∧
      (Submission.delay ⟨75, 150, 9, 0⟩ =
        Instance.delay ⟨300, 60, 0, 0, 0, 0, none, none⟩ +
          Instance.duration ⟨300, 60, 0, 20, 0, 0, some ⟨none, 0, 1⟩, none⟩ *
            (stepsUntilStart
              (.elem false false [.text 5, .elem false false [.text 10], .text 5])
              (some [1]) : Rat) /
            Instance.totalSteps ⟨300, 60, 0, 20, 0, 0, some ⟨none, 0, 1⟩, none⟩ ∧
      Submission.duration ⟨75, 150, 9, 0⟩ =
        Instance.duration ⟨300, 60, 0, 20, 0, 0, some ⟨none, 0, 1⟩, none⟩ *
          ((countSteps (.elem false false [.text 10]) none : Rat) /
            Instance.totalSteps ⟨300, 60, 0, 20, 0, 0, some ⟨none, 0, 1⟩, none⟩)) := by
  have h5 : stepsUntilStart
      (.elem false false [.text 5, .elem false false [.text 10], .text 5]) (some [1]) = 5 := by
    decide
  have h10 : countSteps (.elem false false [.text 10]) none = 10 := by decide
  have heval : attemptAnimationTiming
      ⟨300, 60, 0, 0, 0, 0, none, none⟩
      [⟨300, 60, 0, 20, 0, 0, some ⟨none, 0, 1⟩, none⟩]
      (.elem false false [.text 5, .elem false false [.text 10], .text 5]) (some [1])
      (.elem false false [.text 10]) [⟨0, 0, 10, 10⟩] =
      some ⟨75, 150, 9, 0⟩ := by
    rw [attemptAnimationTiming]
    rw [show resolveAnimatingRoot ⟨300, 60, 0, 0, 0, 0, none, none⟩
        [⟨300, 60, 0, 20, 0, 0, some ⟨none, 0, 1⟩, none⟩] =
        ⟨300, 60, 0, 20, 0, 0, some ⟨none, 0, 1⟩, none⟩ from rfl]
    rw [animateM, h5, h10]
    norm_num [animateProgress, Submission.mk.injEq]
  exact ⟨heval, c2_slice_allocation ⟨300, 60, 0, 0, 0, 0, none, none⟩
    [⟨300, 60, 0, 20, 0, 0, some ⟨none, 0, 1⟩, none⟩] _ _ _ _ _
    ⟨300, 60, 0, 20, 0, 0, some ⟨none, 0, 1⟩, none⟩ rfl heval⟩

/-- C7 counterexample: the animating root's configured delay is 100 but the
child instance's own delay is 0; the child is submitted with delay 75 and
duration 150, so its window [75, 225] starts before the root's window
[100, 400] — containment fails. -/
theorem c7_nested_containment_cex :
    attemptAnimationTiming
        ⟨300, 60, 0, 0, 0, 0, none, none⟩
        [⟨300, 60, 100, 20, 0, 0, some ⟨none, 0, 1⟩, none⟩]
        (.elem false false [.text 5, .elem false false [.text 10], .text 5]) (some [1])
        (.elem false false [.text 10]) [⟨0, 0, 10, 10⟩] =
      some ⟨75, 150, 9, 0⟩ ∧
      Instance.delay ⟨300, 60, 100, 20, 0, 0, some ⟨none, 0, 1⟩, none⟩ = 100 ∧
      ¬ ((100 : Rat) ≤ 75) := by
  have h5 : stepsUntilStart
      (.elem false false [.text 5, .elem false false [.text 10], .text 5]) (some [1]) = 5 := by
    decide
  have h10 : countSteps (.elem false false [.text 10]) none = 10 := by decide
  refine ⟨?_, rfl, by norm_num⟩
  rw [attemptAnimationTiming]
  rw [show resolveAnimatingRoot ⟨300, 60, 0, 0, 0, 0, none, none⟩
      [⟨300, 60, 100, 20, 0, 0, some ⟨none, 0, 1⟩, none⟩] =
      ⟨300, 60, 100, 20, 0, 0, some ⟨none, 0, 1⟩, none⟩ from rfl]
  rw [animateM, h5, h10]
  norm_num [animateProgress, Submission.mk.injEq]

/-- C7 (amended): for every child instance whose run submits an animation
under an animating root, IF the child's own configured delay equals the
root's configured delay AND the steps before the child plus the child's own
steps do not exceed the root's recorded totalSteps (true when the counts are
fresh and the child is ordinary visible content), then the child's time
window [delay, delay + duration] lies within the root's window
[rootDelay, rootDelay + rootDuration]. -/
theorem c7_nested_containment (inst : Instance) (ancestors : List Instance)
    (rootTree elemTree : DNode) (elemPath : Option (List Nat)) (rects : List Rect)
    (sub : Submission) (root : Instance)
    (hroot : resolveAnimatingRoot inst ancestors = root)
    (h : attemptAnimationTiming inst ancestors rootTree elemPath elemTree rects =
      some sub)
    (hdelay : inst.delay = root.delay)
    (hS : 0 < root.totalSteps) (hD : 0 ≤ root.duration)
    (hbw : (stepsUntilStart rootTree elemPath : Rat) + (countSteps elemTree none : Rat) ≤
      root.totalSteps) :
    root.delay ≤ sub.delay ∧ sub.delay + sub.duration ≤ root.delay + root.duration := by
  rw [attemptAnimationTiming] at h
  rw [hroot] at h
  obtain ⟨hd, hdur, -, -, -⟩ := animateM_some root rootTree elemPath elemTree rects
    root.duration inst.fps inst.delay sub h
  constructor
  · rw [hd, hdelay]
    have hnn : 0 ≤ root.duration * (stepsUntilStart rootTree elemPath : Rat) /
        root.totalSteps := by positivity
    linarith
  · rw [hd, hdur, hdelay]
    have h1 : ((stepsUntilStart rootTree elemPath : Rat) +
        (countSteps elemTree none : Rat)) / root.totalSteps ≤ 1 :=
      (div_le_one hS).mpr hbw
    have h2 : root.duration * (((stepsUntilStart rootTree elemPath : Rat) +
        (countSteps elemTree none : Rat)) / root.totalSteps) ≤ root.duration := by
      calc root.duration * (((stepsUntilStart rootTree elemPath : Rat) +
            (countSteps elemTree none : Rat)) / root.totalSteps) ≤ root.duration * 1 :=
          mul_le_mul_of_nonneg_left h1 hD
        _ = root.duration := mul_one _
    have key : root.duration * (stepsUntilStart rootTree elemPath : Rat) /
          root.totalSteps +
        root.duration * ((countSteps elemTree none : Rat) / root.totalSteps) =
        root.duration * (((stepsUntilStart rootTree elemPath : Rat) +
          (countSteps elemTree none : Rat)) / root.totalSteps) := by
      ring
    linarith

/-- Witness for C7 at Scenario C with both delays 0: the child's window
[75, 225] lies within the root's window [0, 300]. -/
theorem c7_nested_containment_witness :
    attemptAnimationTiming
        ⟨300, 60, 0, 0, 0, 0, none, none⟩
        [⟨300, 60, 0, 20, 0, 0, some ⟨none, 0, 1⟩, none⟩]
        (.elem false false [.text 5, .elem false false [.text 10], .text 5]) (some [1])
        (.elem false false [.text 10]) [⟨0, 0, 10, 10⟩] =
      some ⟨75, 150, 9, 0⟩ ∧
      Instance.delay ⟨300, 60, 0, 20, 0, 0, some ⟨none, 0, 1⟩, none⟩ ≤
        Submission.delay ⟨75, 150, 9, 0⟩ ∧
      Submission.delay ⟨75, 150, 9, 0⟩ + Submission.duration ⟨75, 150, 9, 0⟩ ≤
        Instance.delay ⟨300, 60, 0, 20, 0, 0, some ⟨none, 0, 1⟩, none⟩ +
          Instance.duration ⟨300, 60, 0, 20, 0, 0, some ⟨none, 0, 1⟩, none⟩ := by
  have h5 : stepsUntilStart
      (.elem false false [.text 5, .elem false false [.text 10], .text 5]) (some [1]) = 5 := by
    decide
  have h10 : countSteps (.elem false false [.text 10]) none = 10 := by decide
  have heval : attemptAnimationTiming
      ⟨300, 60, 0, 0, 0, 0, none, none⟩
      [⟨300, 60, 0, 20, 0, 0, some ⟨none, 0, 1⟩, none⟩]
      (.elem false false [.text 5, .elem false false [.text 10], .text 5]) (some [1])
      (.elem false false [.text 10]) [⟨0, 0, 10, 10⟩] =
      some ⟨75, 150, 9, 0⟩ := by
    rw [attemptAnimationTiming]
    rw [show resolveAnimatingRoot ⟨300, 60, 0, 0, 0, 0, none, none⟩
        [⟨300, 60, 0, 20, 0, 0, some ⟨none, 0, 1⟩, none⟩] =
        ⟨300, 60, 0, 20, 0, 0, some ⟨none, 0, 1⟩, none⟩ from rfl]
    rw [animateM, h5, h10]
    norm_num [animateProgress, Submission.mk.injEq]
  have happ := c7_nested_containment ⟨300, 60, 0, 0, 0, 0, none, none⟩
    [⟨300, 60, 0, 20, 0, 0, some ⟨none, 0, 1⟩, none⟩] _ _ _ _ _
    ⟨300, 60, 0, 20, 0, 0, some ⟨none, 0, 1⟩, none⟩ rfl heval rfl (by norm_num)
    (by norm_num) (by rw [h5, h10]; norm_num)
  exact ⟨heval, happ.1, happ.2⟩

/-- C6 counterexample: a running animation with an observable elapsed time
of 50 that is still inside its 100ms delay (activeDuration 200) yields a
NEGATIVE progress fraction; the code then does NOT record
`stepsCompleted = runningToSteps * fraction` (which would be -5/2) but keeps
the previous value 3 — the claim's unconditional recording is wrong. -/
theorem c6_restart_progress_cex :
    (restartSample ⟨300, 60, 0, 20, 3, 10, some ⟨some 50, 100, 200⟩, none⟩).stepsCompleted =
        3 ∧
      Instance.runningToSteps ⟨300, 60, 0, 20, 3, 10, some ⟨some 50, 100, 200⟩, none⟩ *
          (((50 : Rat) - 100) / 200) = -(5 / 2) ∧
      ((3 : Rat) ≠ -(5 / 2)) := by
  refine ⟨?_, by norm_num, by norm_num⟩
  rw [restartSample]
  norm_num

/-- C6 (amended): on a restart while an animation is running with an
observable elapsed time, the coordinator records
`stepsCompleted = runningToSteps * fraction` with
`fraction = (stopTime - delay) / activeDuration` ONLY when that fraction is
strictly positive (otherwise the previous record is kept), and it always
cancels both handles; and the subsequent run degrades to a no-op for an
instance when the recorded progress has reached or passed the end of that
instance's slice (`stepsCompleted ≥ stepsUntilStart + stepsWithinElement`):
no animation is submitted for it. -/
theorem c6_restart_progress :
    (∀ (inst : Instance) (a : AnimHandle) (t : Rat), inst.runningAnimation = some a →
      a.currentTime = some t → 0 < (t - a.timingDelay) / a.activeDuration →
      (restartSample inst).stepsCompleted =
          inst.runningToSteps * ((t - a.timingDelay) / a.activeDuration) ∧
        (restartSample inst).runningAnimation = none ∧
        (restartSample inst).runningCaretAnimation = none) ∧
    (∀ (rootInstance : Instance) (rootTree : DNode) (elemPath : Option (List Nat))
        (elemTree : DNode) (rects : List Rect) (d f dl : Rat),
      rootInstance.stepsCompleted ≥
          (stepsUntilStart rootTree elemPath : Rat) + (countSteps elemTree none : Rat) →
      animateM rootInstance rootTree elemPath elemTree rects d f dl = none) := by
  constructor
  · intro inst a t ha ht hpos
    simp only [restartSample, ha, ht, hpos, if_true]
    exact ⟨trivial, trivial, trivial⟩
  · intro rootInstance rootTree elemPath elemTree rects d f dl h
    exact animateM_none_of_completed rootInstance rootTree elemPath elemTree rects d f dl h

/-- Witness for C6: a run canceled at elapsed time 150 with delay 100 and
active duration 200 has fraction 1/4 > 0, so stepsCompleted is recorded as
10 * (1/4) = 5/2 and the handles are cleared; and a root that has already
completed 30 steps no-ops an element slice ending at step 15. -/
theorem c6_restart_progress_witness :
    ((restartSample ⟨300, 60, 0, 20, 3, 10, some ⟨some 150, 100, 200⟩, none⟩).stepsCompleted =
        Instance.runningToSteps ⟨300, 60, 0, 20, 3, 10, some ⟨some 150, 100, 200⟩, none⟩ *
          (((150 : Rat) - 100) / 200) ∧
      (restartSample ⟨300, 60, 0, 20, 3, 10, some ⟨some 150, 100, 200⟩, none⟩).runningAnimation =
        none ∧
      (restartSample
          ⟨300, 60, 0, 20, 3, 10, some ⟨some 150, 100, 200⟩, none⟩).runningCaretAnimation =
        none) ∧
      Instance.runningToSteps ⟨300, 60, 0, 20, 3, 10, some ⟨some 150, 100, 200⟩, none⟩ *
          (((150 : Rat) - 100) / 200) = 5 / 2 ∧
      animateM ⟨300, 60, 0, 20, 30, 20, none, none⟩
        (.elem false false [.text 5, .elem false false [.text 10], .text 5]) (some [1])
        (.elem false false [.text 10]) [⟨0, 0, 10, 10⟩] 300 60 0 = none := by
  refine ⟨c6_restart_progress.1 ⟨300, 60, 0, 20, 3, 10, some ⟨some 150, 100, 200⟩, none⟩
      ⟨some 150, 100, 200⟩ 150 rfl rfl (by norm_num), by norm_num, ?_⟩
  refine c6_restart_progress.2 ⟨300, 60, 0, 20, 30, 20, none, none⟩
    (.elem false false [.text 5, .elem false false [.text 10], .text 5]) (some [1])
    (.elem false false [.text 10]) [⟨0, 0, 10, 10⟩] 300 60 0 ?_
  rw [show stepsUntilStart
      (.elem false false [.text 5, .elem false false [.text 10], .text 5]) (some [1]) = 5
    from by decide]
  rw [show countSteps (.elem false false [.text 10]) none = 10 from by decide]
  norm_num

/-- C8: a run submits keyframes only when the frame count (computed from the
sliced duration) is at least 2 and the root's geometry is exactly one
nonzero-area rect; each of the listed failure modes — too few frames, a
multi-rect root, a zero-area root — makes the run a no-op for that
instance (returns before `element.animate`). -/
theorem c8_submission_guards :
    (∀ (root : Instance) (rootTree : DNode) (ep : Option (List Nat)) (elemTree : DNode)
        (rects : List Rect) (d f dl : Rat) (sub : Submission),
      animateM root rootTree ep elemTree rects d f dl = some sub →
        2 ≤ sub.frameCount ∧ sub.frameCount = ⌊sub.duration * f / 1000⌋ ∧
        ∃ r, rects = [r] ∧ (r.w == 0 || r.h == 0) = false) ∧
    (∀ (root : Instance) (rootTree : DNode) (ep : Option (List Nat)) (elemTree : DNode)
        (rects : List Rect) (d f dl : Rat), rects.length ≠ 1 →
      animateM root rootTree ep elemTree rects d f dl = none) ∧
    (∀ (root : Instance) (rootTree : DNode) (ep : Option (List Nat)) (elemTree : DNode)
        (r : Rect) (d f dl : Rat), (r.w == 0 || r.h == 0) = true →
      animateM root rootTree ep elemTree [r] d f dl = none) ∧
    (∀ (root : Instance) (rootTree : DNode) (ep : Option (List Nat)) (elemTree : DNode)
        (rects : List Rect) (d f dl : Rat),
      ⌊d * ((countSteps elemTree none : Rat) / root.totalSteps) * f / 1000⌋ < 2 →
      animateM root rootTree ep elemTree rects d f dl = none) := by
  refine ⟨?_, ?_, ?_, ?_⟩
  · intro root rootTree ep elemTree rects d f dl sub h
    obtain ⟨-, -, hfc, h2, hr⟩ := animateM_some root rootTree ep elemTree rects d f dl sub h
    exact ⟨h2, hfc, hr⟩
  · intro root rootTree ep elemTree rects d f dl h
    exact animateM_none_of_multiRect root rootTree ep elemTree rects d f dl h
  · intro root rootTree ep elemTree r d f dl h
    exact animateM_none_of_zeroArea root rootTree ep elemTree r d f dl h
  · intro root rootTree ep elemTree rects d f dl h
    exact animateM_none_of_fewFrames root rootTree ep elemTree rects d f dl h

/-- Witness for C8 at concrete inputs: a successful submission has 9 ≥ 2
frames and one nonzero rect; an empty rect list, a zero-width rect, and a
duration of 10ms (frame count 0) each produce a no-op. -/
theorem c8_submission_guards_witness :
    animateM ⟨300, 60, 0, 20, 0, 0, none, none⟩
        (.elem false false [.text 5, .elem false false [.text 10], .text 5]) (some [1])
        (.elem false false [.text 10]) [⟨0, 0, 10, 10⟩] 300 60 0 =
      some ⟨75, 150, 9, 0⟩ ∧
      (2 ≤ Submission.frameCount ⟨75, 150, 9, 0⟩ ∧
        Submission.frameCount ⟨75, 150, 9, 0⟩ =
          ⌊Submission.duration ⟨75, 150, 9, 0⟩ * 60 / 1000⌋ ∧
        ∃ r, [(⟨0, 0, 10, 10⟩ : Rect)] = [r] ∧ (r.w == 0 || r.h == 0) = false) ∧
      animateM ⟨300, 60, 0, 20, 0, 0, none, none⟩
        (.elem false false [.text 5, .elem false false [.text 10], .text 5]) (some [1])
        (.elem false false [.text 10]) [] 300 60 0 = none ∧
      animateM ⟨300, 60, 0, 20, 0, 0, none, none⟩
        (.elem false false [.text 5, .elem false false [.text 10], .text 5]) (some [1])
        (.elem false false [.text 10]) [⟨0, 0, 0, 10⟩] 300 60 0 = none ∧
      animateM ⟨300, 60, 0, 20, 0, 0, none, none⟩
        (.elem false false [.text 5, .elem false false [.text 10], .text 5]) (some [1])
        (.elem false false [.text 10]) [⟨0, 0, 10, 10⟩] 10 60 0 = none := by
  have h5 : stepsUntilStart
      (.elem false false [.text 5, .elem false false [.text 10], .text 5]) (some [1]) = 5 := by
    decide
  have h10 : countSteps (.elem false false [.text 10]) none = 10 := by decide
  have heval : animateM ⟨300, 60, 0, 20, 0, 0, none, none⟩
      (.elem false false [.text 5, .elem false false [.text 10], .text 5]) (some [1])
      (.elem false false [.text 10]) [⟨0, 0, 10, 10⟩] 300 60 0 = some ⟨75, 150, 9, 0⟩ := by
    rw [animateM, h5, h10]
    norm_num [animateProgress, Submission.mk.injEq]
  refine ⟨heval, c8_submission_guards.1 _ _ _ _ _ _ _ _ _ heval,
    c8_submission_guards.2.1 _ _ _ _ _ _ _ _ (by norm_num),
    c8_submission_guards.2.2.1 _ _ _ _ ⟨0, 0, 0, 10⟩ _ _ _ (by norm_num),
    c8_submission_guards.2.2.2 _ _ _ _ _ _ _ _ ?_⟩
  rw [show Instance.totalSteps ⟨300, 60, 0, 20, 0, 0, none, none⟩ = 20 from rfl, h10]
  norm_num


/-- C9: unmounting an instance in any state — any combination of present or
absent animation handles, any parent children list containing the instance
at most once (each instance registers once on mount) — clears and cancels
the reveal and caret animation handles, disconnects both observers, and
removes the instance from its parent's children list; no dangling handle
survives, and no step requires the run to have started. -/
theorem c9_unmount_cleanup (selfId : Nat) (inst : InstanceRT) (pc : List Nat)
    (hcount : pc.count selfId ≤ 1) :
    (unmountCleanup selfId inst (some pc)).inst.runningAnimation = none ∧
      (unmountCleanup selfId inst (some pc)).inst.runningCaretAnimation = none ∧
      (unmountCleanup selfId inst (some pc)).inst.mutationConnected = false ∧
      (unmountCleanup selfId inst (some pc)).inst.resizeConnected = false ∧
      (∀ cs, (unmountCleanup selfId inst (some pc)).parentChildren = some cs →
        selfId ∉ cs) ∧
      (∀ hdl, inst.runningAnimation = some hdl →
        hdl ∈ (unmountCleanup selfId inst (some pc)).canceled) ∧
      (∀ hdl, inst.runningCaretAnimation = some hdl →
        hdl ∈ (unmountCleanup selfId inst (some pc)).canceled) := by
  refine ⟨rfl, rfl, rfl, rfl, ?_, ?_, ?_⟩
  · intro cs hcs
    simp only [unmountCleanup, Option.map_some', Option.some.injEq] at hcs
    subst hcs
    by_cases hmem : selfId ∈ pc
    · have hidx : pc.indexOf selfId < pc.length := List.indexOf_lt_length.mpr hmem
      rw [if_pos hidx, List.eraseIdx_indexOf_eq_erase]
      have h0 : (pc.erase selfId).count selfId = 0 := by
        rw [List.count_erase_self]
        omega
      exact List.count_eq_zero.mp h0
    · have hidx : ¬ pc.indexOf selfId < pc.length := by
        rw [List.indexOf_eq_length.mpr hmem]
        omega
      rw [if_neg hidx]
      exact hmem
  · intro hdl hh
    simp only [unmountCleanup, hh]
    cases hc : inst.runningCaretAnimation <;> simp
  · intro hdl hh
    simp only [unmountCleanup, hh]
    cases hc : inst.runningAnimation <;> simp

/-- Witness for C9: a mid-run instance (both handles set, both observers
connected, registered in its parent's children) is fully torn down, and the
same cleanup is error-free for a not-yet-started instance (no handles). -/
theorem c9_unmount_cleanup_witness :
    ((unmountCleanup 7 ⟨some 1, some 2, true, true⟩ (some [3, 7, 5])).inst.runningAnimation =
        none ∧
      (unmountCleanup 7 ⟨some 1, some 2, true, true⟩
          (some [3, 7, 5])).inst.runningCaretAnimation = none ∧
      (unmountCleanup 7 ⟨some 1, some 2, true, true⟩
          (some [3, 7, 5])).inst.mutationConnected = false ∧
      (unmountCleanup 7 ⟨some 1, some 2, true, true⟩
          (some [3, 7, 5])).inst.resizeConnected = false ∧
      (∀ cs, (unmountCleanup 7 ⟨some 1, some 2, true, true⟩
          (some [3, 7, 5])).parentChildren = some cs → 7 ∉ cs) ∧
      (∀ hdl, (⟨some 1, some 2, true, true⟩ : InstanceRT).runningAnimation = some hdl →
        hdl ∈ (unmountCleanup 7 ⟨some 1, some 2, true, true⟩ (some [3, 7, 5])).canceled) ∧
      (∀ hdl, (⟨some 1, some 2, true, true⟩ : InstanceRT).runningCaretAnimation =
          some hdl →
        hdl ∈ (unmountCleanup 7 ⟨some 1, some 2, true, true⟩ (some [3, 7, 5])).canceled)) ∧
      (unmountCleanup 7 ⟨none, none, true, false⟩ (some [7])).canceled = [] := by
  exact ⟨c9_unmount_cleanup 7 ⟨some 1, some 2, true, true⟩ [3, 7, 5] (by decide), by decide⟩
